import Mathlib

/-!
Verification of `adb_quick_connect_wireless.py` (scrcpy-wireless).

The script scans the local subnet for a device answering on the ADB
wireless port: it discovers the local network from the interface table
(`get_local_network_info`, lines 19-44), fills a queue with every host of
the network (`main`, lines 129-131), and starts `NUM_THREADS` worker
threads (lines 136-142).  Each worker loops (lines 101-117): while the
global `stop_event` is not set, it pops an address from the queue with a
one second timeout, pings it (`ping_host`, lines 46-61) and, when the ping
answers, runs `adb connect` (`attempt_adb_connect`, lines 63-93); a
successful connect sets the global `stop_event`.  An empty queue ends the
worker; `main` then polls until the queue is empty or the event is set and
joins every thread.

The embedding below follows the source.  External subprocess calls are
modelled by their observable outcome (`SubprocessOutcome`); raising code
returns `Except`.  The thread pool is modelled as a small-step scheduler
semantics: a `ScanState` holds the shared queue, the stop flag and one
program counter per worker, `step` executes one atomic action of one
worker, and a schedule (a list of worker indices) resolves the
interleaving.  Every theorem about the pool quantifies over all schedules,
all worker counts and all ping and connect oracles.
-/

namespace AdbScan

/-- Observable outcome of one `subprocess.run` invocation, as the Python
`try` blocks of lines 55-61 and 70-92 distinguish them: the process ran and
exited with status 0 (`check=True` did not fire) producing this stdout; the
process exited nonzero (`subprocess.CalledProcessError`); the call hit its
`timeout` (`subprocess.TimeoutExpired`); or the binary was absent
(`FileNotFoundError`). -/
inductive SubprocessOutcome where
  | completed (stdout : String)
  | calledProcessError (stderr : String)
  | timeoutExpired
  | fileNotFound
deriving DecidableEq

/-- The `timeout=1` argument of the `subprocess.run` call on line 58. -/
def ping_timeout : Nat := 1

/-- The `timeout=5` argument of the `subprocess.run` call on line 76. -/
def adb_timeout : Nat := 5

/-- The `ADB_PORT = 5555` constant of line 13. -/
def ADB_PORT : Nat := 5555

/-- `ping_host` (lines 46-61): runs `ping -c 1 ip` with `check=True` and
`timeout=1`.  A clean exit returns `True`; `CalledProcessError` and
`TimeoutExpired` are caught and return `False`.  `FileNotFoundError` (the
`ping` binary missing) is NOT in the `except` tuple of line 60, so it
escapes to the caller: modelled as `Except.error`.  The address argument is
kept to mirror the signature; the outcome of the external call is the
`o` argument. -/
def ping_host (ip : String) (o : SubprocessOutcome) : Except String Bool :=
  match o with
  | .completed _ => Except.ok true
  | .calledProcessError _ => Except.ok false
  | .timeoutExpired => Except.ok false
  | .fileNotFound => Except.error ("FileNotFoundError: ping " ++ ip)

/-- Character-list version of the Python substring test `needle in hay`:
does `hay` start with `needle`? -/
def startsWith : List Char → List Char → Bool
  | [], _ => true
  | _ :: _, [] => false
  | a :: as, b :: bs => a = b && startsWith as bs

/-- Does `needle` occur contiguously inside `hay`? -/
def containsSub (needle hay : List Char) : Bool :=
  startsWith needle hay ||
    match hay with
    | [] => false
    | _ :: t => containsSub needle t

/-- The Python membership test `needle in hay` on strings (line 80). -/
def strContains (hay needle : String) : Bool :=
  containsSub needle.toList hay.toList

/-- `attempt_adb_connect` (lines 63-93): runs `adb connect ip:5555` with
`check=True` and `timeout=5`.  On a clean exit it returns the heuristic
`"connected to" in result.stdout` (lines 80-84).  `FileNotFoundError`,
`TimeoutExpired` and `CalledProcessError` are all caught (lines 86-92) and
fall through to `return False` on line 93: no outcome raises. -/
def attempt_adb_connect (ip : String) (o : SubprocessOutcome) : Except String Bool :=
  match o with
  | .completed stdout => Except.ok (strContains stdout "connected to")
  | .calledProcessError _ => Except.ok false
  | .timeoutExpired => Except.ok false
  | .fileNotFound => Except.ok false

/-! ### Network discovery (`get_local_network_info`, lines 19-44) -/

/-- One entry of `netifaces.ifaddresses(iface)[netifaces.AF_INET]`: an IPv4
address string and the optional `netmask` key (line 34 uses `.get`, which
yields `None` when absent). -/
structure Link where
  addr : String
  netmask : Option String
deriving DecidableEq

/-- Python truthiness of the `netmask` value on line 37: `None` and the
empty string are falsy, every other string is truthy. -/
def pyTruthy : Option String → Bool
  | none => false
  | some s => s ≠ ""

/-- The network derived on line 39: the script builds
`ipaddress.IPv4Network(f"{ip_address}/{netmask}", strict=False)`; we model
the network by the string handed to that constructor (the parse itself is
the external `ipaddress` library, assumed to accept the well-formed dotted
quads `netifaces` reports). -/
abbrev Network := String

/-- The f-string of line 39. -/
def mkNetwork (ip mask : String) : Network := ip ++ "/" ++ mask

/-- The inner `for link in addresses[netifaces.AF_INET]` loop of lines
32-41: return the network of the first link whose address differs from
`127.0.0.1` and whose netmask is truthy. -/
def scanLinks : List Link → Option Network
  | [] => none
  | l :: ls =>
    if (l.addr != "127.0.0.1") && pyTruthy l.netmask then
      some (mkNetwork l.addr (l.netmask.getD ""))
    else
      scanLinks ls

/-- `get_local_network_info` (lines 19-44): the outer
`for iface in interfaces` loop.  An interface is modelled by the list of
its AF_INET links; an interface without the AF_INET key (line 31) behaves
exactly like one with an empty link list.  Falls off the loop to
`return None` on line 44 when no interface yields a network. -/
def get_local_network_info : List (List Link) → Option Network
  | [] => none
  | iface :: rest =>
    match scanLinks iface with
    | some n => some n
    | none => get_local_network_info rest

/-- The selection predicate of line 37, as the spec words it: a usable
link is one carrying a non-loopback address together with a subnet mask. -/
def usableLink (l : Link) : Bool :=
  (l.addr != "127.0.0.1") && pyTruthy l.netmask

/-- The network a usable link determines (line 39). -/
def linkNetwork (l : Link) : Network :=
  mkNetwork l.addr (l.netmask.getD "")

/-- Modelled from the spec sentence "selects the first interface with a
usable (non-loopback) address and subnet mask": the first usable link in
interface order, then link order. -/
def firstUsable (ifaces : List (List Link)) : Option Link :=
  ifaces.flatten.find? usableLink

/-! ### The worker pool (`worker`, lines 95-117, and `main`, lines 119-155)

A candidate address is abstracted as a natural number (its identity is all
the coordinator logic uses).  The behaviour of `ping_host` and
`attempt_adb_connect` during a scan is abstracted by two boolean oracles
`pingO` and `connO`; per the contracts verified above neither raises in the
conditions a scan exercises, so the pool sees plain booleans, exactly as
`worker` does on lines 106-110.

Each worker thread is compiled to a program counter with one position per
atomic action of the loop body of lines 101-115:

  * `atCheck`  — about to evaluate `stop_event.is_set()` (line 101);
  * `atGet`    — the check was false, about to run `queue.get(timeout=1)`
                 (line 103): with a populated queue this dequeues the head,
                 with an empty one it raises `queue.Empty` and the worker
                 breaks (lines 113-115);
  * `hasItem`  — holding an address, about to call `ping_host` (line 106);
  * `toConnect`— the ping answered, about to call `attempt_adb_connect`
                 (line 108);
  * `done`     — the worker returned.

Note the stop event is consulted ONLY at `atCheck`: a worker that has
already passed the check, or already holds an address, runs its whole
iteration — ping and connect included — even if another worker sets the
event meanwhile.  The state also carries audit fields recording every
dequeue completion (`processed`), every ping and connect invocation, every
successful connect (`successes`, each of which executes `stop_event.set()`
on line 110 and prints the success message of line 81), and the number of
connect invocations begun while the stop event was already set
(`connAfterStop`). -/

abbrev Candidate := Nat

/-- Program counter of one worker thread. -/
inductive Pc where
  | atCheck
  | atGet
  | hasItem (c : Candidate)
  | toConnect (c : Candidate)
  | done
deriving DecidableEq

/-- Shared state of one scan run: the queue of lines 129-131, the
`stop_event` of line 17, one `Pc` per worker thread, and the audit
fields. -/
structure ScanState where
  q : List Candidate
  stop : Bool
  workers : List Pc
  processed : List Candidate
  pingCalls : List Candidate
  connCalls : List Candidate
  successes : List Candidate
  connAfterStop : Nat
deriving DecidableEq

/-- One atomic action of worker `w` (no-op for an index out of range or a
finished worker), following the loop body of lines 101-115 position by
position. -/
def step (pingO connO : Candidate → Bool) (s : ScanState) (w : Nat) : ScanState :=
  match s.workers[w]? with
  | none => s
  | some .done => s
  | some .atCheck =>
    if s.stop then
      { s with workers := s.workers.set w .done }
    else
      { s with workers := s.workers.set w .atGet }
  | some .atGet =>
    match s.q with
    | [] => { s with workers := s.workers.set w .done }
    | c :: rest => { s with q := rest, workers := s.workers.set w (.hasItem c) }
  | some (.hasItem c) =>
    if pingO c then
      { s with pingCalls := s.pingCalls ++ [c],
               workers := s.workers.set w (.toConnect c) }
    else
      { s with pingCalls := s.pingCalls ++ [c],
               processed := s.processed ++ [c],
               workers := s.workers.set w .atCheck }
  | some (.toConnect c) =>
    if connO c then
      { s with connCalls := s.connCalls ++ [c],
               connAfterStop := s.connAfterStop + (if s.stop then 1 else 0),
               successes := s.successes ++ [c],
               stop := true,
               processed := s.processed ++ [c],
               workers := s.workers.set w .atCheck }
    else
      { s with connCalls := s.connCalls ++ [c],
               connAfterStop := s.connAfterStop + (if s.stop then 1 else 0),
               processed := s.processed ++ [c],
               workers := s.workers.set w .atCheck }

/-- State at the start of a scan: the queue fully populated before any
worker runs (lines 129-141), all `W` workers at the top of their loop,
audit fields empty.  `stopIn` is the value the module-level `stop_event`
(line 17) already has when `main` is entered: `false` for a fresh process,
possibly `true` for a later `main()` call in the same process, since the
script never calls `stop_event.clear()`. -/
def initState (stopIn : Bool) (W : Nat) (cs : List Candidate) : ScanState :=
  { q := cs, stop := stopIn, workers := List.replicate W .atCheck,
    processed := [], pingCalls := [], connCalls := [], successes := [],
    connAfterStop := 0 }

/-- A whole scan run under schedule `sched`: the scheduler executes the
atomic actions of the listed workers in order.  Quantifying theorems over
every `sched` quantifies over every interleaving of the thread pool. -/
def run (pingO connO : Candidate → Bool) (s : ScanState) (sched : List Nat) : ScanState :=
  sched.foldl (step pingO connO) s

/-- `main` (lines 119-155): discover the network; on `None` print the
diagnostic of line 125 and return from `main` (the script never calls
`sys.exit`, so the interpreter still exits with status 0 and no queue is
populated and no worker is started); otherwise populate the queue with
`network.hosts()` — modelled by the `hosts` argument, the external
`ipaddress` enumeration — run the scan and exit 0.  The result pairs the
process exit status with the final scan state, when a scan ran at all. -/
def pyMain (ifaces : List (List Link)) (hosts : Network → List Candidate)
    (pingO connO : Candidate → Bool) (stopIn : Bool) (W : Nat) (sched : List Nat) :
    Nat × Option ScanState :=
  match get_local_network_info ifaces with
  | none => (0, none)
  | some net => (0, some (run pingO connO (initState stopIn W (hosts net)) sched))

/-! ### Generic scheduler lemmas -/

/-- A predicate preserved by every single worker action is preserved by
every schedule. -/
lemma run_preserves (pingO connO : Candidate → Bool) (P : ScanState → Prop)
    (hstep : ∀ s w, P s → P (step pingO connO s w)) :
    ∀ (sched : List Nat) (s : ScanState), P s → P (run pingO connO s sched) := by
  intro sched
  induction sched with
  | nil => intro s h; exact h
  | cons w ws ih =>
    intro s h
    have : run pingO connO s (w :: ws) = run pingO connO (step pingO connO s w) ws := by
      simp [run]
    rw [this]
    exact ih _ (hstep s w h)

/-- Updating one slot of a list moves the mapped sum by the difference of
the images of the old and new entries. -/
lemma sum_map_set (f : Pc → Nat) (l : List Pc) (i : Nat) (a b : Pc)
    (h : l[i]? = some a) :
    ((l.set i b).map f).sum + f a = (l.map f).sum + f b := by
  induction l generalizing i with
  | nil => simp at h
  | cons x xs ih =>
    cases i with
    | zero =>
      simp at h
      subst h
      simp [List.set]
      omega
    | succ j =>
      simp at h
      have hj := ih j h
      simp [List.set, List.map_set] at hj ⊢
      omega

/-- A map bounded by one sums to at most the length. -/
lemma sum_map_le_length (f : Pc → Nat) (hf : ∀ pc, f pc ≤ 1) (l : List Pc) :
    (l.map f).sum ≤ l.length := by
  induction l with
  | nil => simp
  | cons x xs ih =>
    simp only [List.map_cons, List.sum_cons, List.length_cons]
    have := hf x
    omega

/-- An index lookup that answers `some a` puts `a` in the list. -/
lemma mem_of_lookup {α : Type} (l : List α) (i : Nat) (a : α) (h : l[i]? = some a) :
    a ∈ l := by
  obtain ⟨hlt, he⟩ := List.getElem?_eq_some.mp h
  exact he ▸ List.getElem_mem hlt

/-- The stop event is never cleared: one step keeps it set. -/
lemma step_stop_mono (pingO connO : Candidate → Bool) (s : ScanState) (w : Nat)
    (h : s.stop = true) : (step pingO connO s w).stop = true := by
  rcases hpc : s.workers[w]? with _ | pc
  · simp [step, hpc, h]
  · cases pc <;> simp [step, hpc, h] <;> split <;> simp [h]

/-- A step never changes the number of workers. -/
lemma step_workers_length (pingO connO : Candidate → Bool) (s : ScanState) (w : Nat) :
    (step pingO connO s w).workers.length = s.workers.length := by
  rcases hpc : s.workers[w]? with _ | pc
  · simp [step, hpc]
  · cases pc <;> simp [step, hpc] <;> split <;> simp

/-! ### Invariants of the pool -/

/-- How many copies of `x` a worker holds: one when its program counter
carries `x` as the dequeued address, none otherwise. -/
def itemCount (x : Candidate) : Pc → Nat
  | .hasItem c => if c = x then 1 else 0
  | .toConnect c => if c = x then 1 else 0
  | _ => 0

/-- Conservation of addresses: every address of the initial queue `cs` is,
at any time, in the queue, in the hands of exactly one worker, or in the
processed list — with the same multiplicity as in `cs`. -/
def massInv (cs : List Candidate) (s : ScanState) : Prop :=
  ∀ x, s.q.count x + (s.workers.map (itemCount x)).sum + s.processed.count x
    = cs.count x

lemma step_massInv (pingO connO : Candidate → Bool) (cs : List Candidate)
    (s : ScanState) (w : Nat) (h : massInv cs s) :
    massInv cs (step pingO connO s w) := by
  intro x
  have hx := h x
  rcases hpc : s.workers[w]? with _ | pc
  · simpa [step, hpc] using hx
  · cases pc with
    | done => simpa [step, hpc] using hx
    | atCheck =>
      by_cases hst : s.stop
      · have hs := sum_map_set (itemCount x) s.workers w _ Pc.done hpc
        simp [step, hpc, hst, itemCount, List.map_set] at hs ⊢
        omega
      · have hs := sum_map_set (itemCount x) s.workers w _ Pc.atGet hpc
        simp [step, hpc, hst, itemCount, List.map_set] at hs ⊢
        omega
    | atGet =>
      rcases hq : s.q with _ | ⟨c, rest⟩
      · have hs := sum_map_set (itemCount x) s.workers w _ Pc.done hpc
        simp [hq] at hx
        simp [step, hpc, hq, itemCount, List.map_set] at hs ⊢
        omega
      · have hs := sum_map_set (itemCount x) s.workers w _ (Pc.hasItem c) hpc
        simp [hq, List.count_cons] at hx
        simp [step, hpc, hq, itemCount, List.map_set, List.count_cons] at hs ⊢
        omega
    | hasItem c =>
      by_cases hping : pingO c
      · have hs := sum_map_set (itemCount x) s.workers w _ (Pc.toConnect c) hpc
        simp [step, hpc, hping, itemCount, List.map_set] at hs ⊢
        omega
      · have hs := sum_map_set (itemCount x) s.workers w _ Pc.atCheck hpc
        rcases eq_or_ne c x with hcx | hcx
        · subst hcx
          simp [step, hpc, hping, itemCount, List.map_set, List.count_append,
            List.count_cons] at hs ⊢
          omega
        · have hxc : x ≠ c := Ne.symm hcx
          simp [step, hpc, hping, hcx, hxc, itemCount, List.map_set, List.count_append,
            List.count_cons] at hs ⊢
          omega
    | toConnect c =>
      have hs := sum_map_set (itemCount x) s.workers w _ Pc.atCheck hpc
      by_cases hconn : connO c <;>
        rcases eq_or_ne c x with hcx | hcx
      · subst hcx
        simp [step, hpc, hconn, itemCount, List.map_set, List.count_append,
          List.count_cons] at hs ⊢
        omega
      · have hxc : x ≠ c := Ne.symm hcx
        simp [step, hpc, hconn, hcx, hxc, itemCount, List.map_set, List.count_append,
          List.count_cons] at hs ⊢
        omega
      · subst hcx
        simp [step, hpc, hconn, itemCount, List.map_set, List.count_append,
          List.count_cons] at hs ⊢
        omega
      · have hxc : x ≠ c := Ne.symm hcx
        simp [step, hpc, hconn, hcx, hxc, itemCount, List.map_set, List.count_append,
          List.count_cons] at hs ⊢
        omega

/-- While the stop event has never been set, a finished worker means the
queue is empty: workers only return early because of the event (line 101)
or because `queue.get` raised `queue.Empty` (lines 113-115). -/
def doneInv (s : ScanState) : Prop :=
  s.stop = false → ∀ pc ∈ s.workers, pc = Pc.done → s.q = []

lemma step_doneInv (pingO connO : Candidate → Bool) (s : ScanState) (w : Nat)
    (h : doneInv s) : doneInv (step pingO connO s w) := by
  intro hstop
  have hs : s.stop = false := by
    by_contra hc
    rw [step_stop_mono pingO connO s w (by simpa using hc)] at hstop
    exact absurd hstop (by simp)
  rcases hpc : s.workers[w]? with _ | pc
  · simpa [step, hpc] using h hs
  · cases pc with
    | done => simpa [step, hpc] using h hs
    | atCheck =>
      intro pc hmem hpd
      simp [step, hpc, hs] at hmem ⊢
      rcases List.mem_or_eq_of_mem_set hmem with hold | hnew
      · exact h hs pc hold hpd
      · exact absurd (hnew ▸ hpd) (by simp)
    | atGet =>
      rcases hq : s.q with _ | ⟨c, rest⟩
      · intro pc hmem hpd
        simp [step, hpc, hq]
      · intro pc hmem hpd
        simp [step, hpc, hq] at hmem ⊢
        rcases List.mem_or_eq_of_mem_set hmem with hold | hnew
        · exact absurd (h hs pc hold hpd) (by simp [hq])
        · exact absurd (hnew ▸ hpd) (by simp)
    | hasItem c =>
      intro pc hmem hpd
      by_cases hping : pingO c <;>
        simp [step, hpc, hping] at hmem ⊢ <;>
        rcases List.mem_or_eq_of_mem_set hmem with hold | hnew
      · exact h hs pc hold hpd
      · exact absurd (hnew ▸ hpd) (by simp)
      · exact h hs pc hold hpd
      · exact absurd (hnew ▸ hpd) (by simp)
    | toConnect c =>
      by_cases hconn : connO c
      · exact absurd (by simp [step, hpc, hconn] : (step pingO connO s w).stop = true)
          (by simp [hstop])
      · intro pc hmem hpd
        simp [step, hpc, hconn] at hmem ⊢
        rcases List.mem_or_eq_of_mem_set hmem with hold | hnew
        · exact h hs pc hold hpd
        · exact absurd (hnew ▸ hpd) (by simp)

/-- A scan entered with the stop event already set is inert: every worker
sits at the loop-head check or has exited, and the queue and every audit
field keep their initial value. -/
def inertInv (cs : List Candidate) (s : ScanState) : Prop :=
  s.stop = true ∧ s.q = cs ∧ s.processed = [] ∧ s.pingCalls = [] ∧
  s.connCalls = [] ∧ ∀ pc ∈ s.workers, pc = Pc.atCheck ∨ pc = Pc.done

lemma step_inertInv (pingO connO : Candidate → Bool) (cs : List Candidate)
    (s : ScanState) (w : Nat) (h : inertInv cs s) :
    inertInv cs (step pingO connO s w) := by
  obtain ⟨hstop, hq, hproc, hping, hconn, hw⟩ := h
  rcases hpc : s.workers[w]? with _ | pc
  · exact ⟨by simp [step, hpc, hstop], by simp [step, hpc, hq],
      by simp [step, hpc, hproc], by simp [step, hpc, hping],
      by simp [step, hpc, hconn], by simp [step, hpc]; exact hw⟩
  · rcases hw pc (mem_of_lookup s.workers w pc hpc) with hac | hdn
    · subst hac
      refine ⟨by simp [step, hpc, hstop], by simp [step, hpc, hstop, hq],
        by simp [step, hpc, hstop, hproc], by simp [step, hpc, hstop, hping],
        by simp [step, hpc, hstop, hconn], ?_⟩
      intro pc2 hmem
      simp [step, hpc, hstop] at hmem
      rcases List.mem_or_eq_of_mem_set hmem with hold | hnew
      · exact hw pc2 hold
      · exact Or.inr hnew
    · subst hdn
      exact ⟨by simp [step, hpc, hstop], by simp [step, hpc, hq],
        by simp [step, hpc, hproc], by simp [step, hpc, hping],
        by simp [step, hpc, hconn], by simp [step, hpc]; exact hw⟩

/-- How many more `attempt_adb_connect` calls a worker can still begin once
the stop event is set: one while it is inside an iteration (it will not see
the event before the next loop-head check), none at the check or after
returning. -/
def bOf : Pc → Nat
  | .atCheck => 0
  | .done => 0
  | _ => 1

/-- Bound on connect calls begun after the stop event is set: while the
event is unset none have been counted, and once it is set the counted
calls plus the remaining capacity of the pool never exceed the worker
count. -/
def casInv (W : Nat) (s : ScanState) : Prop :=
  s.workers.length = W ∧
  (s.stop = false → s.connAfterStop = 0) ∧
  (s.stop = true → s.connAfterStop + (s.workers.map bOf).sum ≤ W)

lemma step_casInv (pingO connO : Candidate → Bool) (W : Nat)
    (s : ScanState) (w : Nat) (h : casInv W s) :
    casInv W (step pingO connO s w) := by
  obtain ⟨hlen, hK, hJ⟩ := h
  refine ⟨by rw [step_workers_length]; exact hlen, ?_, ?_⟩
  all_goals rcases hpc : s.workers[w]? with _ | pc
  · simpa [step, hpc] using hK
  · intro hstop
    have hs : s.stop = false := by
      by_contra hc
      rw [step_stop_mono pingO connO s w (by simpa using hc)] at hstop
      exact absurd hstop (by simp)
    cases pc <;> simp [step, hpc, hs] at hstop ⊢ <;>
      first
      | exact hK hs
      | (rcases hq : s.q with _ | ⟨c, rest⟩ <;> simp [hq] <;> exact hK hs)
      | (split <;> simp_all <;> omega)
  · simpa [step, hpc] using hJ
  · intro hstop
    by_cases hs : s.stop
    · have hJs := hJ hs
      cases pc with
      | done => simpa [step, hpc] using hJs
      | atCheck =>
        have hb := sum_map_set bOf s.workers w _ Pc.done hpc
        simp [step, hpc, hs, bOf, List.map_set] at hb ⊢
        omega
      | atGet =>
        rcases hq : s.q with _ | ⟨c, rest⟩
        · have hb := sum_map_set bOf s.workers w _ Pc.done hpc
          simp [step, hpc, hq, bOf, List.map_set] at hb ⊢
          omega
        · have hb := sum_map_set bOf s.workers w _ (Pc.hasItem c) hpc
          simp [step, hpc, hq, bOf, List.map_set] at hb ⊢
          omega
      | hasItem c =>
        by_cases hping : pingO c
        · have hb := sum_map_set bOf s.workers w _ (Pc.toConnect c) hpc
          simp [step, hpc, hping, bOf, List.map_set] at hb ⊢
          omega
        · have hb := sum_map_set bOf s.workers w _ Pc.atCheck hpc
          simp [step, hpc, hping, bOf, List.map_set] at hb ⊢
          omega
      | toConnect c =>
        have hb := sum_map_set bOf s.workers w _ Pc.atCheck hpc
        by_cases hconn : connO c <;>
          simp [step, hpc, hconn, hs, bOf, List.map_set] at hb ⊢ <;>
          omega
    · have hs0 : s.stop = false := by simpa using hs
      have hK0 := hK hs0
      have hlen2 : ((step pingO connO s w).workers.map bOf).sum ≤ W := by
        calc ((step pingO connO s w).workers.map bOf).sum
            ≤ (step pingO connO s w).workers.length :=
              sum_map_le_length bOf (by intro pc2; cases pc2 <;> simp [bOf]) _
          _ = W := by rw [step_workers_length]; exact hlen
      have hcas : (step pingO connO s w).connAfterStop = 0 := by
        cases pc <;> simp [step, hpc, hs0, hK0] <;>
          first
          | (rcases hq : s.q with _ | ⟨c, rest⟩ <;> simp [hq, hK0])
          | (split <;> simp [hK0])
      omega

/-- Connect attempts are gated by the ping (lines 106-108): every address
ever handed to `attempt_adb_connect` answered its ping, and a worker only
ever stands before a connect call for an address whose ping answered. -/
def pingInv (pingO : Candidate → Bool) (s : ScanState) : Prop :=
  (∀ c ∈ s.connCalls, pingO c = true) ∧
  (∀ pc ∈ s.workers, ∀ c, pc = Pc.toConnect c → pingO c = true)

lemma step_pingInv (pingO connO : Candidate → Bool)
    (s : ScanState) (w : Nat) (h : pingInv pingO s) :
    pingInv pingO (step pingO connO s w) := by
  obtain ⟨hcalls, hw⟩ := h
  rcases hpc : s.workers[w]? with _ | pc
  · exact ⟨by simpa [step, hpc] using hcalls, by simpa [step, hpc] using hw⟩
  · cases pc with
    | done => exact ⟨by simpa [step, hpc] using hcalls, by simpa [step, hpc] using hw⟩
    | atCheck =>
      constructor
      · intro c hc
        by_cases hs : s.stop <;> simp [step, hpc, hs] at hc <;> exact hcalls c hc
      · intro pc2 hmem c hpc2
        by_cases hs : s.stop <;> simp [step, hpc, hs] at hmem <;>
          rcases List.mem_or_eq_of_mem_set hmem with hold | hnew
        · exact hw pc2 hold c hpc2
        · exact absurd (hnew ▸ hpc2) (by simp)
        · exact hw pc2 hold c hpc2
        · exact absurd (hnew ▸ hpc2) (by simp)
    | atGet =>
      constructor
      · intro c hc
        rcases hq : s.q with _ | ⟨a, rest⟩ <;> simp [step, hpc, hq] at hc <;>
          exact hcalls c hc
      · intro pc2 hmem c hpc2
        rcases hq : s.q with _ | ⟨a, rest⟩ <;> simp [step, hpc, hq] at hmem <;>
          rcases List.mem_or_eq_of_mem_set hmem with hold | hnew
        · exact hw pc2 hold c hpc2
        · exact absurd (hnew ▸ hpc2) (by simp)
        · exact hw pc2 hold c hpc2
        · exact absurd (hnew ▸ hpc2) (by simp)
    | hasItem a =>
      constructor
      · intro c hc
        by_cases hping : pingO a <;> simp [step, hpc, hping] at hc <;> exact hcalls c hc
      · intro pc2 hmem c hpc2
        by_cases hping : pingO a
        · simp [step, hpc, hping] at hmem
          rcases List.mem_or_eq_of_mem_set hmem with hold | hnew
          · exact hw pc2 hold c hpc2
          · rw [hnew] at hpc2
            cases hpc2
            exact hping
        · simp [step, hpc, hping] at hmem
          rcases List.mem_or_eq_of_mem_set hmem with hold | hnew
          · exact hw pc2 hold c hpc2
          · exact absurd (hnew ▸ hpc2) (by simp)
    | toConnect a =>
      have ha : pingO a = true :=
        hw (Pc.toConnect a) (mem_of_lookup s.workers w _ hpc) a rfl
      constructor
      · intro c hc
        by_cases hconn : connO a <;> simp [step, hpc, hconn] at hc <;>
          rcases hc with hold | hnew
        · exact hcalls c hold
        · exact hnew ▸ ha
        · exact hcalls c hold
        · exact hnew ▸ ha
      · intro pc2 hmem c hpc2
        by_cases hconn : connO a <;> simp [step, hpc, hconn] at hmem <;>
          rcases List.mem_or_eq_of_mem_set hmem with hold | hnew
        · exact hw pc2 hold c hpc2
        · exact absurd (hnew ▸ hpc2) (by simp)
        · exact hw pc2 hold c hpc2
        · exact absurd (hnew ▸ hpc2) (by simp)

/-- When every ping fails, no worker ever reaches a connect call, no
connect call is ever made, and the stop event is never set: the scan can
only exhaust. -/
def noConnInv (s : ScanState) : Prop :=
  s.stop = false ∧ s.connCalls = [] ∧
  ∀ pc ∈ s.workers, ∀ c, pc ≠ Pc.toConnect c

lemma step_noConnInv (pingO connO : Candidate → Bool)
    (hp : ∀ c, pingO c = false)
    (s : ScanState) (w : Nat) (h : noConnInv s) :
    noConnInv (step pingO connO s w) := by
  obtain ⟨hstop, hconn, hw⟩ := h
  rcases hpc : s.workers[w]? with _ | pc
  · exact ⟨by simpa [step, hpc] using hstop, by simpa [step, hpc] using hconn,
      by simpa [step, hpc] using hw⟩
  · cases pc with
    | done => exact ⟨by simpa [step, hpc] using hstop,
        by simpa [step, hpc] using hconn, by simpa [step, hpc] using hw⟩
    | atCheck =>
      refine ⟨by simp [step, hpc, hstop], by simp [step, hpc, hstop, hconn], ?_⟩
      intro pc2 hmem c
      simp [step, hpc, hstop] at hmem
      rcases List.mem_or_eq_of_mem_set hmem with hold | hnew
      · exact hw pc2 hold c
      · simp [hnew]
    | atGet =>
      rcases hq : s.q with _ | ⟨a, rest⟩ <;>
        refine ⟨by simp [step, hpc, hq, hstop], by simp [step, hpc, hq, hconn], ?_⟩ <;>
        intro pc2 hmem c <;>
        simp [step, hpc, hq] at hmem <;>
        rcases List.mem_or_eq_of_mem_set hmem with hold | hnew
      · exact hw pc2 hold c
      · simp [hnew]
      · exact hw pc2 hold c
      · simp [hnew]
    | hasItem a =>
      refine ⟨by simp [step, hpc, hp a, hstop], by simp [step, hpc, hp a, hconn], ?_⟩
      intro pc2 hmem c
      simp [step, hpc, hp a] at hmem
      rcases List.mem_or_eq_of_mem_set hmem with hold | hnew
      · exact hw pc2 hold c
      · simp [hnew]
    | toConnect a =>
      exact absurd rfl (hw (Pc.toConnect a) (mem_of_lookup s.workers w _ hpc) a)

/-- The success log and the stop event mirror each other: the recorded
successes are exactly the connect calls the connect oracle answered, each
of them (not only the first) is appended to the log and sets the event,
and the event is set exactly when the log is non-empty (or the event was
already set on entry, `b0`). -/
def succInv (connO : Candidate → Bool) (b0 : Bool) (s : ScanState) : Prop :=
  s.successes = s.connCalls.filter connO ∧ s.stop = (b0 || !s.successes.isEmpty)

lemma step_succInv (pingO connO : Candidate → Bool) (b0 : Bool)
    (s : ScanState) (w : Nat) (h : succInv connO b0 s) :
    succInv connO b0 (step pingO connO s w) := by
  obtain ⟨hfilt, hstop⟩ := h
  rcases hpc : s.workers[w]? with _ | pc
  · exact ⟨by simpa [step, hpc] using hfilt, by simpa [step, hpc] using hstop⟩
  · cases pc with
    | done => exact ⟨by simpa [step, hpc] using hfilt, by simpa [step, hpc] using hstop⟩
    | atCheck =>
      refine ⟨?_, ?_⟩
      · by_cases hs : s.stop <;> simp [step, hpc, hs] <;> exact hfilt
      · simp only [step, hpc]
        split <;> exact hstop
    | atGet =>
      rcases hq : s.q with _ | ⟨a, rest⟩ <;>
        exact ⟨by simp [step, hpc, hq]; exact hfilt, by simp [step, hpc, hq]; exact hstop⟩
    | hasItem a =>
      by_cases hping : pingO a <;>
        exact ⟨by simp [step, hpc, hping]; exact hfilt,
          by simp [step, hpc, hping]; exact hstop⟩
    | toConnect a =>
      by_cases hconn : connO a
      · refine ⟨?_, ?_⟩
        · simp [step, hpc, hconn, List.filter_append, hfilt]
        · simp [step, hpc, hconn]
      · refine ⟨?_, ?_⟩
        · simp [step, hpc, hconn, List.filter_append, hfilt]
        · simp [step, hpc, hconn]
          exact hstop

/-! ### Initial-state facts -/

lemma init_massInv (b : Bool) (W : Nat) (cs : List Candidate) :
    massInv cs (initState b W cs) := by
  intro x
  simp [initState, massInv, itemCount, List.map_replicate, List.sum_replicate]

lemma init_doneInv (b : Bool) (W : Nat) (cs : List Candidate) :
    doneInv (initState b W cs) := by
  intro _ pc hmem hpd
  rw [List.eq_of_mem_replicate hmem] at hpd
  exact absurd hpd (by simp)

lemma init_casInv (W : Nat) (cs : List Candidate) :
    casInv W (initState false W cs) := by
  refine ⟨by simp [initState], fun _ => rfl, fun h => ?_⟩
  simp [initState] at h

lemma init_pingInv (pingO : Candidate → Bool) (b : Bool) (W : Nat) (cs : List Candidate) :
    pingInv pingO (initState b W cs) := by
  refine ⟨by simp [initState], fun pc hmem c hpc2 => ?_⟩
  rw [List.eq_of_mem_replicate hmem] at hpc2
  exact absurd hpc2 (by simp)

lemma init_noConnInv (W : Nat) (cs : List Candidate) :
    noConnInv (initState false W cs) := by
  refine ⟨rfl, rfl, fun pc hmem c => ?_⟩
  rw [List.eq_of_mem_replicate hmem]
  simp

lemma init_succInv (connO : Candidate → Bool) (b : Bool) (W : Nat) (cs : List Candidate) :
    succInv connO b (initState b W cs) := by
  constructor
  · simp [initState]
  · simp [initState]

lemma init_inertInv (W : Nat) (cs : List Candidate) :
    inertInv cs (initState true W cs) := by
  exact ⟨rfl, rfl, rfl, rfl, rfl, fun pc hmem => Or.inl (List.eq_of_mem_replicate hmem)⟩

lemma run_workers_length (pingO connO : Candidate → Bool) (b : Bool) (W : Nat)
    (cs : List Candidate) (sched : List Nat) :
    (run pingO connO (initState b W cs) sched).workers.length = W := by
  have := run_preserves pingO connO (fun s => s.workers.length = W)
    (fun s w h => by
      show (step pingO connO s w).workers.length = W
      rw [step_workers_length]
      exact h) sched (initState b W cs)
    (by simp [initState])
  exact this

/-! ### The inner link loop agrees with the spec-side selection -/

lemma scanLinks_eq (ls : List Link) :
    scanLinks ls = (ls.find? usableLink).map linkNetwork := by
  induction ls with
  | nil => rfl
  | cons l t ih =>
    by_cases hu : usableLink l = true
    · have hu2 : ((l.addr != "127.0.0.1") && pyTruthy l.netmask) = true := hu
      rw [scanLinks, if_pos hu2, List.find?_cons_of_pos _ hu]
      rfl
    · have hu2 : ¬ (((l.addr != "127.0.0.1") && pyTruthy l.netmask) = true) := hu
      rw [scanLinks, if_neg hu2, List.find?_cons_of_neg _ (by simpa using hu), ih]

/-! ### The claims -/

/-- C5: for every address and every outcome of the underlying `adb`
subprocess, `attempt_adb_connect` returns a boolean rather than raising:
the missing tool, a timeout and a failed connect (nonzero exit) are all
caught by lines 86-92 and collapse to `Except.ok false`; a clean run
returns the heuristic line 80 as a boolean. -/
theorem c5_connector_never_raises (ip : String) (o : SubprocessOutcome) :
    (∃ b, attempt_adb_connect ip o = Except.ok b) ∧
    attempt_adb_connect ip SubprocessOutcome.fileNotFound = Except.ok false ∧
    attempt_adb_connect ip SubprocessOutcome.timeoutExpired = Except.ok false ∧
    (∀ e, attempt_adb_connect ip (SubprocessOutcome.calledProcessError e)
      = Except.ok false) := by
  refine ⟨?_, rfl, rfl, fun e => rfl⟩
  cases o with
  | completed stdout => exact ⟨strContains stdout "connected to", rfl⟩
  | calledProcessError e => exact ⟨false, rfl⟩
  | timeoutExpired => exact ⟨false, rfl⟩
  | fileNotFound => exact ⟨false, rfl⟩

/-- C6: for every address, unreachability is a normal `false` result of
`ping_host`, never an exception: a ping exiting nonzero
(`CalledProcessError`) and a probe hitting the bound (`TimeoutExpired`)
are both caught by line 60 and return `false`; the bound itself is the
`timeout=1` argument of line 58, so a probe cannot outlast a timeout the
subprocess module enforces — the timeout surfaces as the caught
`TimeoutExpired`, not as an error. -/
theorem c6_prober_unreachable_false (ip e : String) :
    ping_host ip (SubprocessOutcome.calledProcessError e) = Except.ok false ∧
    ping_host ip SubprocessOutcome.timeoutExpired = Except.ok false ∧
    ping_timeout = 1 :=
  ⟨rfl, rfl, rfl⟩

/-- C7: `get_local_network_info` returns the network derived from the
first usable link — the first link, in interface order then link order,
whose address is not the loopback `127.0.0.1` and whose netmask is present
and non-empty — and returns `none` exactly when no interface carries such
a link (`firstUsable` is `List.find?` over the flattened interface table,
the spec-side description of the selection). -/
theorem c7_discover_first_usable (ifaces : List (List Link)) :
    get_local_network_info ifaces = (firstUsable ifaces).map linkNetwork := by
  induction ifaces with
  | nil => rfl
  | cons iface rest ih =>
    have hfu : firstUsable (iface :: rest)
        = ((iface.find? usableLink).or (rest.flatten.find? usableLink)) := by
      simp [firstUsable, List.find?_append]
    rcases hfind : iface.find? usableLink with _ | l
    · have h1 : scanLinks iface = none := by rw [scanLinks_eq, hfind]; rfl
      rw [get_local_network_info, h1, hfu, hfind, ih]
      rfl
    · have h1 : scanLinks iface = some (linkNetwork l) := by rw [scanLinks_eq, hfind]; rfl
      rw [get_local_network_info, h1, hfu, hfind]
      rfl

/-- C9: a missing `ping` binary is NOT converted to `false`:
`FileNotFoundError` is absent from the `except` tuple on line 60, so
`ping_host` propagates the exception (no boolean is returned), while
`attempt_adb_connect` catches the same condition on line 86 and returns
`false`. -/
theorem c9_ping_propagates_missing_tool (ip : String) :
    (∃ msg, ping_host ip SubprocessOutcome.fileNotFound = Except.error msg) ∧
    (∀ b, ping_host ip SubprocessOutcome.fileNotFound ≠ Except.ok b) ∧
    attempt_adb_connect ip SubprocessOutcome.fileNotFound = Except.ok false := by
  refine ⟨⟨"FileNotFoundError: ping " ++ ip, rfl⟩, ?_, rfl⟩
  intro b h
  exact absurd h (by simp [ping_host])

/-- C4 counterexample: when discovery finds no usable interface — here an
interface table whose only link is the loopback address — `main` prints
the diagnostic of line 125 and simply returns; the script never calls
`sys.exit`, so the process exit status is 0, not the non-zero status the
claim asserts. -/
theorem c4_counterexample :
    (pyMain [[⟨"127.0.0.1", some "255.0.0.0"⟩]] (fun _ => [1, 2])
      (fun _ => true) (fun _ => true) false 50 []).fst = 0 := by
  rfl

/-- C4 (amended): the process exits 0 in every case — success, exhaustion,
and the no-interface discovery failure alike — and on discovery failure it
returns before any queue population or worker start, so no scan state
exists and zero prober or connector calls occur. -/
theorem c4_exit_behavior (ifaces : List (List Link)) (hosts : Network → List Candidate)
    (pingO connO : Candidate → Bool) (W : Nat) (sched : List Nat) :
    (pyMain ifaces hosts pingO connO false W sched).fst = 0 ∧
    (get_local_network_info ifaces = none →
      (pyMain ifaces hosts pingO connO false W sched).snd = none) := by
  constructor
  · rcases hnet : get_local_network_info ifaces with _ | net <;> simp [pyMain, hnet]
  · intro hnet
    simp [pyMain, hnet]

/-- C2: in every interleaving of every pool of `W ≥ 1` workers over any
populated queue, if the run completes (all workers returned) with the stop
event never set (it starts unset and is never cleared, so a final unset
event means it was never set), then the processed addresses are a
permutation of the initial queue — every candidate dequeued and processed
exactly once, no duplicates, no omissions. -/
theorem c2_each_candidate_processed_once (pingO connO : Candidate → Bool)
    (W : Nat) (cs : List Candidate) (sched : List Nat)
    (hW : 1 ≤ W)
    (hdone : ∀ pc ∈ (run pingO connO (initState false W cs) sched).workers, pc = Pc.done)
    (hstop : (run pingO connO (initState false W cs) sched).stop = false) :
    (run pingO connO (initState false W cs) sched).processed.Perm cs ∧
    (cs.Nodup → (run pingO connO (initState false W cs) sched).processed.Nodup) := by
  have hmass : massInv cs (run pingO connO (initState false W cs) sched) :=
    run_preserves pingO connO (massInv cs)
      (fun s w h => step_massInv pingO connO cs s w h) sched _
      (init_massInv false W cs)
  have hdinv : doneInv (run pingO connO (initState false W cs) sched) :=
    run_preserves pingO connO doneInv
      (fun s w h => step_doneInv pingO connO s w h) sched _
      (init_doneInv false W cs)
  have hlen := run_workers_length pingO connO false W cs sched
  have hne : (run pingO connO (initState false W cs) sched).workers ≠ [] := by
    intro hnil
    rw [hnil] at hlen
    simp at hlen
    omega
  obtain ⟨pc0, hpc0⟩ := List.exists_mem_of_ne_nil _ hne
  have hq : (run pingO connO (initState false W cs) sched).q = [] :=
    hdinv hstop pc0 hpc0 (hdone pc0 hpc0)
  have hcount : ∀ x, (run pingO connO (initState false W cs) sched).processed.count x
      = cs.count x := by
    intro x
    have hx := hmass x
    have hsum : ((run pingO connO (initState false W cs) sched).workers.map
        (itemCount x)).sum = 0 := by
      apply List.sum_eq_zero
      intro y hy
      obtain ⟨pc, hpc, rfl⟩ := List.mem_map.mp hy
      rw [hdone pc hpc]
      rfl
    rw [hq] at hx
    simp at hx
    omega
  have hperm : (run pingO connO (initState false W cs) sched).processed.Perm cs :=
    List.perm_iff_count.mpr hcount
  exact ⟨hperm, fun hnd => hperm.nodup_iff.mpr hnd⟩

/-- C2 witness: one worker, queue `[1, 2]`, every ping unanswered; the
eight listed actions drive the worker through both candidates and out on
the empty queue, and the processed list is a permutation of the queue. -/
theorem c2_witness :
    (run (fun _ => false) (fun _ => false) (initState false 1 [1, 2])
      [0, 0, 0, 0, 0, 0, 0, 0]).processed.Perm [1, 2] ∧
    (([1, 2] : List Candidate).Nodup →
      (run (fun _ => false) (fun _ => false) (initState false 1 [1, 2])
        [0, 0, 0, 0, 0, 0, 0, 0]).processed.Nodup) :=
  c2_each_candidate_processed_once (fun _ => false) (fun _ => false) 1 [1, 2]
    [0, 0, 0, 0, 0, 0, 0, 0] (by decide) (by decide) (by decide)

/-- C3 counterexample: two workers, both addresses reachable and
connectable.  Worker 0 dequeues address 1 and answers its ping; worker 1
then dequeues address 2, pings it, connects and sets the stop event; only
then does worker 0 begin its `attempt_adb_connect` call for address 1 — a
connect call it had NOT started when the event was set (the worker
re-reads the event only at the top of its loop, line 101).  The
`connAfterStop` field counts exactly the connect calls begun while the
event was already set: it ends at 1, where the claim requires that no such
call occur. -/
theorem c3_counterexample :
    (run (fun _ => true) (fun _ => true) (initState false 2 [1, 2])
      [0, 0, 1, 1, 0, 1, 1, 0]).connAfterStop = 1 := by
  rfl

/-- C3 (amended): once the stop event is set each worker can begin at most
one further `attempt_adb_connect` call — the one for the iteration it is
already inside, since the event is only consulted at the loop head — so
across every interleaving the number of connect calls begun after the
event is set is bounded by the worker count `W`. -/
theorem c3_bounded_connects_after_stop (pingO connO : Candidate → Bool)
    (W : Nat) (cs : List Candidate) (sched : List Nat) :
    (run pingO connO (initState false W cs) sched).connAfterStop ≤ W := by
  have hc : casInv W (run pingO connO (initState false W cs) sched) :=
    run_preserves pingO connO (casInv W)
      (fun s w h => step_casInv pingO connO W s w h) sched _
      (init_casInv W cs)
  obtain ⟨hlen, hK, hJ⟩ := hc
  by_cases hs : (run pingO connO (initState false W cs) sched).stop
  · have := hJ hs
    omega
  · have := hK (by simpa using hs)
    omega

/-- C8: a worker invokes `attempt_adb_connect` on an address only if
`ping_host` answered for it (lines 106-108); consequently when the ping
oracle answers `false` for every address, the run makes zero connect
calls and the stop event is never set — the scan can only complete
exhausted. -/
theorem c8_connect_requires_ping (pingO connO : Candidate → Bool)
    (W : Nat) (cs : List Candidate) (sched : List Nat) :
    (∀ c ∈ (run pingO connO (initState false W cs) sched).connCalls, pingO c = true) ∧
    ((∀ c, pingO c = false) →
      (run pingO connO (initState false W cs) sched).connCalls = [] ∧
      (run pingO connO (initState false W cs) sched).stop = false) := by
  constructor
  · exact (run_preserves pingO connO (pingInv pingO)
      (fun s w h => step_pingInv pingO connO s w h) sched _
      (init_pingInv pingO false W cs)).1
  · intro hp
    have hn : noConnInv (run pingO connO (initState false W cs) sched) :=
      run_preserves pingO connO noConnInv
        (fun s w h => step_noConnInv pingO connO hp s w h) sched _
        (init_noConnInv W cs)
    exact ⟨hn.2.1, hn.1⟩

/-- C8 witness: five candidates, ping always unanswered, a schedule
driving two workers across the whole queue: no connect call is made and
the stop event stays unset. -/
theorem c8_witness :
    (run (fun _ => false) (fun _ => false) (initState false 2 [1, 2, 3, 4, 5])
      [0, 1, 0, 1, 0, 1, 0, 1, 0, 1, 0, 1, 0, 1, 0, 1, 0, 1, 0, 1]).connCalls = [] ∧
    (run (fun _ => false) (fun _ => false) (initState false 2 [1, 2, 3, 4, 5])
      [0, 1, 0, 1, 0, 1, 0, 1, 0, 1, 0, 1, 0, 1, 0, 1, 0, 1, 0, 1]).stop = false :=
  (c8_connect_requires_ping (fun _ => false) (fun _ => false) 2 [1, 2, 3, 4, 5]
    [0, 1, 0, 1, 0, 1, 0, 1, 0, 1, 0, 1, 0, 1, 0, 1, 0, 1, 0, 1]).2 (fun _ => rfl)

/-- C1 counterexample: two workers, both addresses reachable and
connectable.  Worker 1 connects to address 2 first and sets the stop
event; worker 0, already holding address 1 (the event is re-read only at
the loop head, line 101), then also connects to address 1: its success is
likewise reported — `attempt_adb_connect` prints the success line 81 and
the worker executes `stop_event.set()` on line 110; nothing discards it,
and no winning address is recorded anywhere (the script has no result
variable, `main` prints only the fixed completion message of line 155).
The success log of this run is `[2, 1]`: two reported successes, refuting
the claim that a second concurrent success is discarded and not reported,
and that the result carries the single winning address. -/
theorem c1_counterexample :
    (run (fun _ => true) (fun _ => true) (initState false 2 [1, 2])
      [0, 0, 1, 1, 1, 1, 0, 0]).successes = [2, 1] := by
  rfl

/-- C1 (amended): the code records no winning address at all.  A
successful connect sets the shared `stop_event` — an idempotent boolean
set, not a compare-and-set, and nothing stores which address set it — and
the final report carries no address.  Every successful connect, not only
the first, is reported: the success log equals the full list of connect
calls the connect oracle answered, and the stop event ends set exactly
when that log is non-empty. -/
theorem c1_no_winner_recorded (pingO connO : Candidate → Bool)
    (W : Nat) (cs : List Candidate) (sched : List Nat) :
    (run pingO connO (initState false W cs) sched).successes
      = (run pingO connO (initState false W cs) sched).connCalls.filter connO ∧
    ((run pingO connO (initState false W cs) sched).stop = true ↔
      (run pingO connO (initState false W cs) sched).successes ≠ []) := by
  have hsi : succInv connO false (run pingO connO (initState false W cs) sched) :=
    run_preserves pingO connO (succInv connO false)
      (fun s w h => step_succInv pingO connO false s w h) sched _
      (init_succInv connO false W cs)
  obtain ⟨hfilt, hstop⟩ := hsi
  refine ⟨hfilt, ?_⟩
  rw [hstop]
  cases hcs : (run pingO connO (initState false W cs) sched).successes with
  | nil => simp
  | cons a t => simp

/-- C10: the module-level `stop_event` (line 17) is set on line 110 and
never cleared — no step of the pool turns the flag off — so after any
`main()` run in which a connect attempt succeeded (non-empty success log,
hence the event ends set), a subsequent `main()` call in the same process
starts with the event already set and its workers exit at the first
loop-head check: the new queue is left untouched and not one candidate is
dequeued, pinged or connected. -/
theorem c10_stale_stop_event
    (pA cA : Candidate → Bool) (WA : Nat) (csA : List Candidate) (schA : List Nat)
    (pB cB : Candidate → Bool) (WB : Nat) (csB : List Candidate) (schB : List Nat)
    (hsucc : (run pA cA (initState false WA csA) schA).successes ≠ []) :
    (run pB cB (initState (run pA cA (initState false WA csA) schA).stop WB csB)
      schB).q = csB ∧
    (run pB cB (initState (run pA cA (initState false WA csA) schA).stop WB csB)
      schB).processed = [] ∧
    (run pB cB (initState (run pA cA (initState false WA csA) schA).stop WB csB)
      schB).pingCalls = [] ∧
    (run pB cB (initState (run pA cA (initState false WA csA) schA).stop WB csB)
      schB).connCalls = [] := by
  have hsi : succInv cA false (run pA cA (initState false WA csA) schA) :=
    run_preserves pA cA (succInv cA false)
      (fun s w h => step_succInv pA cA false s w h) schA _
      (init_succInv cA false WA csA)
  have hstop : (run pA cA (initState false WA csA) schA).stop = true := by
    rw [hsi.2]
    cases hcs : (run pA cA (initState false WA csA) schA).successes with
    | nil => exact absurd hcs hsucc
    | cons a t => simp
  rw [hstop]
  have hin : inertInv csB (run pB cB (initState true WB csB) schB) :=
    run_preserves pB cB (inertInv csB)
      (fun s w h => step_inertInv pB cB csB s w h) schB _
      (init_inertInv WB csB)
  exact ⟨hin.2.1, hin.2.2.1, hin.2.2.2.1, hin.2.2.2.2.1⟩

/-- C10 witness: a first run with one worker connecting to address 5, then
a second run whose queue holds address 7: fed the first run's final event
value, the second run leaves its queue untouched and makes zero ping and
connect calls. -/
theorem c10_witness :
    (run (fun _ => true) (fun _ => true)
      (initState (run (fun _ => true) (fun _ => true) (initState false 1 [5])
        [0, 0, 0, 0]).stop 1 [7]) [0, 0, 0]).q = [7] ∧
    (run (fun _ => true) (fun _ => true)
      (initState (run (fun _ => true) (fun _ => true) (initState false 1 [5])
        [0, 0, 0, 0]).stop 1 [7]) [0, 0, 0]).processed = [] ∧
    (run (fun _ => true) (fun _ => true)
      (initState (run (fun _ => true) (fun _ => true) (initState false 1 [5])
        [0, 0, 0, 0]).stop 1 [7]) [0, 0, 0]).pingCalls = [] ∧
    (run (fun _ => true) (fun _ => true)
      (initState (run (fun _ => true) (fun _ => true) (initState false 1 [5])
        [0, 0, 0, 0]).stop 1 [7]) [0, 0, 0]).connCalls = [] :=
  c10_stale_stop_event (fun _ => true) (fun _ => true) 1 [5] [0, 0, 0, 0]
    (fun _ => true) (fun _ => true) 1 [7] [0, 0, 0] (by decide)

end AdbScan
